import Mathlib

/-!
Verification of the FOTZ PDF microservice (`src/app.py`) against its
natural-language specification.

The Python source is shallowly embedded: pure text transforms become Lean
functions on `List Char` / `String`; the network is an explicit oracle
`String → NetResult`; the markdown renderer is an opaque parameter
`md : String → String`; PDF merging is modelled as the list of merged
parts.  Python's Unicode case conversion and the `\w`/`\s` regex classes
are modelled over the alphabet this service works with (ASCII plus the
Polish extended letters); every string the code or the claims exercise
stays inside that alphabet.
-/

namespace Fotz

/-- Whitespace, as Python's `\s` and `str.split()` see it (ASCII part:
space, tab, newline, carriage return, vertical tab, form feed). -/
def isWsChar (c : Char) : Bool :=
  c == ' ' || c == '\t' || c == '\n' || c == '\r' || c == '\x0b' || c == '\x0c'

/-- Case correspondence (upper, lower) for the alphabet in play: ASCII
letters and the Polish extended letters.  Python's `str.lower`/`str.upper`
restricted to this alphabet. -/
def casePairs : List (Char × Char) :=
  [('A','a'), ('B','b'), ('C','c'), ('D','d'), ('E','e'), ('F','f'), ('G','g'),
   ('H','h'), ('I','i'), ('J','j'), ('K','k'), ('L','l'), ('M','m'), ('N','n'),
   ('O','o'), ('P','p'), ('Q','q'), ('R','r'), ('S','s'), ('T','t'), ('U','u'),
   ('V','v'), ('W','w'), ('X','x'), ('Y','y'), ('Z','z'),
   ('Ą','ą'), ('Ć','ć'), ('Ę','ę'), ('Ł','ł'), ('Ń','ń'), ('Ó','ó'),
   ('Ś','ś'), ('Ź','ź'), ('Ż','ż')]

/-- Python `str.lower` on one character (modelled alphabet). -/
def toLowerX (c : Char) : Char :=
  match casePairs.find? (fun p => p.1 == c) with
  | some p => p.2
  | none => c

/-- Python `str.upper` on one character (modelled alphabet). -/
def toUpperX (c : Char) : Char :=
  match casePairs.find? (fun p => p.2 == c) with
  | some p => p.1
  | none => c

/-- Python `str.lower` on a word. -/
def lowerStr (w : List Char) : List Char := w.map toLowerX

/-- Python `str.capitalize`: first character uppercased, the REST
lowercased (this is what `words[0].capitalize()` in `standardize_titles`
does). -/
def capitalizePy : List Char → List Char
  | [] => []
  | c :: cs => toUpperX c :: cs.map toLowerX

/-- How a leading non-whitespace character extends the split of the
remainder: it either opens a fresh token (remainder empty or starting
with whitespace) or glues onto the remainder's first token. -/
def splitWsGlue (c : Char) (cs : List Char) (r : List (List Char)) : List (List Char) :=
  match cs, r with
  | [], r => [c] :: r
  | _ :: _, [] => [c] :: []
  | d :: _, t :: ts => if isWsChar d then [c] :: t :: ts else (c :: t) :: ts

/-- `str.split()` (split on whitespace runs, no empty tokens), from
`title.split()` in `standardize_titles`. -/
def splitWs : List Char → List (List Char)
  | [] => []
  | c :: cs =>
    if isWsChar c then splitWs cs
    else splitWsGlue c cs (splitWs cs)

/-- `' '.join(...)` from `standardize_titles`. -/
def joinSp : List (List Char) → List Char
  | [] => []
  | [t] => t
  | t :: ts => t ++ ' ' :: joinSp ts

/-- Split into (first line, later lines) at `'\n'`; the scaffolding for
`re.MULTILINE` processing of `^(#{2,4})\s+(.+)$` line by line. -/
def splitLinesP : List Char → List Char × List (List Char)
  | [] => ([], [])
  | c :: cs =>
    let r := splitLinesP cs
    if c == '\n' then ([], r.1 :: r.2) else (c :: r.1, r.2)

/-- All lines of a text (always at least one line, as Python's line model
of a multiline regex substitution). -/
def splitLines (cs : List Char) : List (List Char) :=
  (splitLinesP cs).1 :: (splitLinesP cs).2

/-- Rejoin lines with `'\n'`. -/
def joinLines : List (List Char) → List Char
  | [] => []
  | [l] => l
  | l :: ls => l ++ '\n' :: joinLines ls

/-- The `PROPER_NOUNS` registry of `src/app.py` (canonical casings). -/
def PROPER_NOUNS : List String :=
  ["Notion", "Trello", "Asana", "Google", "Zapier", "YouTube",
   "Instagram", "TikTok", "Facebook", "LinkedIn", "Twitter",
   "Excel", "Tableau", "PowerBI", "Buffer", "HubSpot",
   "ICE", "EVP", "SOP", "AI", "API", "DeepL", "FOTZ"]

/-- The registry as character lists. -/
def properNounsCore : List (List Char) := PROPER_NOUNS.map String.data

/-- One non-first heading word, as `standardize_titles` processes it:
`is_proper = any(pn.lower() == word.lower() ...)`; if proper, the first
matching registry entry's canonical casing, else `word.lower()`. -/
def titleWordTransform (w : List Char) : List Char :=
  let is_proper := properNounsCore.any (fun pn => lowerStr pn == lowerStr w)
  if is_proper then
    match properNounsCore.find? (fun pn => lowerStr pn == lowerStr w) with
    | some pn => pn
    | none => lowerStr w
  else lowerStr w

/-- Whether a heading body begins with a whitespace character (the `\s+`
between the marker and the title text). -/
def headIsWs : List Char → Bool
  | c :: _ => isWsChar c
  | [] => false

/-- A line consisting of whitespace only (an empty line included). -/
def lineAllWs (l : List Char) : Bool := l.all isWsChar

/-- The replacement `process_title` builds for a matched heading: the
marker (run of `r` hashes) plus a single space, then the first word sent
through `firstFn` and every later word through `laterFn`, joined by
single spaces. -/
def headingRewrite (firstFn laterFn : List Char → List Char) (r : Nat)
    (w : List Char) (ws : List (List Char)) : List Char :=
  List.replicate r '#' ++ ' ' :: joinSp (firstFn w :: ws.map laterFn)

/-- The scan of `re.sub(r'^(#{2,4})\s+(.+)$', process_title, content,
flags=re.MULTILINE)`, over the list of lines of the text.  A match starts
at a line whose leading `#` run has length 2 to 4 followed by whitespace
(Python's `\s` also matches the newline itself, so a marker-only line
matches when any line follows).  When the line holds a word after the
marker, the title is that line's remainder and the heading is rewritten
in place.  When the remainder is all whitespace, the greedy `\s+` crosses
the line breaks: the match swallows the following all-whitespace lines up
to the first line holding a non-whitespace character, whose text becomes
the title (the swallowed lines collapse into the rewritten heading line);
if no such line exists the match replaces itself unchanged.  The fuel
argument (instantiated with the number of lines, an upper bound on the
recursion depth) only makes the recursion structural. -/
def stdLinesGo (firstFn laterFn : List Char → List Char) :
    Nat → List (List Char) → List (List Char)
  | 0, ls => ls
  | _ + 1, [] => []
  | fuel + 1, line :: rest =>
    let r := (line.takeWhile (fun c => c == '#')).length
    let body := line.dropWhile (fun c => c == '#')
    if 2 ≤ r ∧ r ≤ 4 ∧ (headIsWs body = true ∨ (body = [] ∧ rest ≠ [])) then
      match splitWs body with
      | w :: ws =>
        headingRewrite firstFn laterFn r w ws :: stdLinesGo firstFn laterFn fuel rest
      | [] =>
        match rest.dropWhile lineAllWs with
        | [] => line :: stdLinesGo firstFn laterFn fuel rest
        | target :: rest2 =>
          (match splitWs target with
           | w :: ws => headingRewrite firstFn laterFn r w ws
           | [] => line) :: stdLinesGo firstFn laterFn fuel rest2
    else line :: stdLinesGo firstFn laterFn fuel rest

/-- The line scan with just enough fuel. -/
def stdLines (firstFn laterFn : List Char → List Char)
    (ls : List (List Char)) : List (List Char) :=
  stdLinesGo firstFn laterFn ls.length ls

/-- `standardize_titles` of `src/app.py` (lines 108-138): first word of a
matched heading through `str.capitalize`, later words through the
proper-noun registry / lowercasing. -/
def standardize_titles (content : String) : String :=
  String.mk (joinLines (stdLines capitalizePy titleWordTransform (splitLines content.data)))

/-! The keyword-emphasis transform `apply_bold_keywords` (lines 141-162):
per keyword, the pattern
`(?<!\*\*)(<keyword>[a-ząćęłńóśźż]{0,6})(?!\*\*)` is substituted with
`**\1**` once per paragraph, under `re.IGNORECASE`. -/

/-- The characters of the suffix class `[a-ząćęłńóśźż]` as written. -/
def suffixClassChars : List Char := "abcdefghijklmnopqrstuvwxyząćęłńóśźż".data

/-- Membership in the suffix class as written (no flag applied). -/
def inBoldClass (c : Char) : Bool := suffixClassChars.contains c

/-- Membership in the suffix class under `re.IGNORECASE`: the flag applies
to the whole pattern, so a character also matches when its lowercase form
is in the class. -/
def inBoldClassCI (c : Char) : Bool := inBoldClass c || inBoldClass (toLowerX c)

/-- Whether a character list starts with the two-star emphasis marker
(the lookbehind/lookahead `\*\*` of the pattern). -/
def startsWithBold : List Char → Bool
  | '*' :: '*' :: _ => true
  | _ => false

/-- Case-insensitive literal match of the (escaped) keyword at the front:
returns the matched input characters (original casing, as group 1 keeps
them) and the remaining input. -/
def stripKeywordCI : List Char → List Char → Option (List Char × List Char)
  | [], rest => some ([], rest)
  | _ :: _, [] => none
  | k :: ks, c :: cs =>
    if toLowerX c == toLowerX k then
      match stripKeywordCI ks cs with
      | some (m, r) => some (c :: m, r)
      | none => none
    else none

/-- Greedy backtracking of `{0,6}` against the lookahead `(?!\*\*)`: try
the suffix length `k`, `k-1`, ... down to 0 and keep the first length at
which the two characters after the match are not `**`. -/
def pickSuffixLen (rest : List Char) : Nat → Option Nat
  | 0 => if startsWithBold rest then none else some 0
  | k + 1 =>
    if startsWithBold (rest.drop (k + 1)) then pickSuffixLen rest k
    else some (k + 1)

/-- One attempt of the pattern at the current position. `rev` is the
already-scanned text reversed (so the lookbehind `(?<!\*\*)` reads its
first two characters); on success the result is (matched text, rest). -/
def tryMatchAt (classFn : Char → Bool) (kw : List Char)
    (rev rest : List Char) : Option (List Char × List Char) :=
  if startsWithBold rev then none
  else
    match stripKeywordCI kw rest with
    | none => none
    | some (m, r) =>
      match pickSuffixLen r (min 6 (r.takeWhile classFn).length) with
      | none => none
      | some k => some (m ++ r.take k, r.drop k)

/-- Leftmost match scan of `re.sub(pattern, r'**\1**', para, count=1)`:
walk the paragraph, try the pattern at every position and wrap the first
match in `**`; `none` when the pattern matches nowhere. -/
def subFirstAux (classFn : Char → Bool) (kw : List Char) :
    List Char → List Char → Option (List Char)
  | rev, rest =>
    match tryMatchAt classFn kw rev rest with
    | some (m, rem) =>
      some (rev.reverse ++ '*' :: '*' :: (m ++ '*' :: '*' :: rem))
    | none =>
      match rest with
      | [] => none
      | c :: cs => subFirstAux classFn kw (c :: rev) cs

/-- One paragraph: at most the first occurrence is wrapped. -/
def boldPara (classFn : Char → Bool) (kw : List Char) (para : List Char) : List Char :=
  (subFirstAux classFn kw [] para).getD para

/-- `text.split('\n\n')` as (first paragraph, later paragraphs). -/
def splitParaP : List Char → List Char × List (List Char)
  | [] => ([], [])
  | '\n' :: '\n' :: cs =>
    let r := splitParaP cs
    ([], r.1 :: r.2)
  | c :: cs =>
    let r := splitParaP cs
    (c :: r.1, r.2)

/-- All paragraphs of a text. -/
def splitParas (cs : List Char) : List (List Char) :=
  (splitParaP cs).1 :: (splitParaP cs).2

/-- `'\n\n'.join(...)`. -/
def joinParas : List (List Char) → List Char
  | [] => []
  | [p] => p
  | p :: ps => p ++ '\n' :: '\n' :: joinParas ps

/-- `replace_first_in_paragraph` for one keyword: split into paragraphs,
wrap the first match in each paragraph, rejoin. -/
def applyKeywordBold (classFn : Char → Bool) (kw : List Char) (content : List Char) : List Char :=
  joinParas ((splitParas content).map (boldPara classFn kw))

/-- The keyword loop of `apply_bold_keywords`, parameterized by the
suffix-class predicate (the point claim C2 turns on). -/
def boldEngine (classFn : Char → Bool) (content : String) (keywords : List String) : String :=
  if keywords = [] then content
  else String.mk (keywords.foldl (fun acc kw => applyKeywordBold classFn kw.data acc) content.data)

/-- `apply_bold_keywords` of `src/app.py` (lines 141-162): the suffix
class under `re.IGNORECASE`. -/
def apply_bold_keywords (content : String) (keywords : List String) : String :=
  boldEngine inBoldClassCI content keywords

/-- `process_content` of `src/app.py` (lines 165-176): titles first, then
keyword bolding when a non-empty keyword list was supplied (Python
truthiness of the optional list). -/
def process_content (content : String) (keywords : Option (List String)) : String :=
  let c1 := standardize_titles content
  match keywords with
  | some kws => if kws ≠ [] then apply_bold_keywords c1 kws else c1
  | none => c1

/-! Title sanitization, `re.sub(r'[^\w\s-]', '', request.title).replace(' ', '_')`
(lines 494 and 534). -/

/-- Uppercase letters of the modelled alphabet. -/
def upperLetterChars : List Char := "ABCDEFGHIJKLMNOPQRSTUVWXYZĄĆĘŁŃÓŚŹŻ".data

/-- Digits. -/
def digitChars : List Char := "0123456789".data

/-- Python's `\w` (word character: letter, digit or underscore), over the
modelled alphabet. -/
def isWordCharX (c : Char) : Bool :=
  suffixClassChars.contains c || upperLetterChars.contains c ||
    digitChars.contains c || c == '_'

/-- A character `[^\w\s-]` does NOT delete: word, whitespace or hyphen. -/
def keepTitleChar (c : Char) : Bool := isWordCharX c || isWsChar c || c == '-'

/-- The filename stem both endpoints derive from the request title:
delete every character that is not word/whitespace/hyphen, then replace
each space character (exactly `' '`) by an underscore. -/
def safe_title (title : String) : String :=
  String.mk ((title.data.filter keepTitleChar).map (fun c => if c == ' ' then '_' else c))

/-! Network model.  `download_image` (lines 318-331) wraps
`requests.get(url, timeout=30)` + `response.raise_for_status()` + a file
write in one `try`: any raised exception is caught and `None` returned.
`raise_for_status` raises exactly for status codes 400-599. -/

/-- Outcome of one HTTP GET: a response with its status code and body, a
connection-level error, or a timeout. -/
inductive NetResult
  | ok (status : Nat) (body : String)
  | connError
  | timeout

/-- `download_image`: the saved file (represented by the response body)
or `none`.  A response with status 400-599 makes `raise_for_status`
raise; connection errors and timeouts raise in `requests.get`; all are
caught and turn into `none`. -/
def download_image (net : String → NetResult) (url : String) : Option String :=
  match net url with
  | .ok status body => if 400 ≤ status ∧ status < 600 then none else some body
  | .connError => none
  | .timeout => none

/-! Request shapes (the pydantic models, lines 67-94). -/

/-- One table-of-contents entry. -/
structure TocItem where
  title : String
  page : Int

/-- The generate-document request (`PdfRequest`). -/
structure PdfRequest where
  content : String
  title : String
  subtitle : String := "Poradnik"
  author : String := "FOTZ Studio"
  toc_items : Option (List TocItem) := none
  keywords_to_bold : Option (List String) := none
  cover_url : Option String := none
  infographic_urls : Option (List String) := none
  logo_url : Option String := none

/-- The generate-package request (`ZipRequest`). -/
structure ZipRequest where
  pdf_content : String
  title : String
  subtitle : String := "Poradnik"
  author : String := "FOTZ Studio"
  toc_items : Option (List TocItem) := none
  keywords_to_bold : Option (List String) := none
  cover_url : Option String := none
  mockup_url : Option String := none
  infographic_urls : Option (List String) := none
  logo_url : Option String := none
  blog_post : Option String := none
  shop_description : Option String := none

/-- Python truthiness of an optional string (`if request.x:`):
present and non-empty. -/
def truthyStr : Option String → Bool
  | none => false
  | some s => !(s == "")

/-- Python truthiness of an optional list: present and non-empty. -/
def truthyList {α : Type} : Option (List α) → Bool
  | none => false
  | some l => !l.isEmpty

/-! The FOTZ branding constants and the style sheet (lines 54-59 and
182-312).  Literal braces of the CSS are written as escapes. -/

def primary_color : String := "#601A43"

def secondary_color : String := "#162E52"

def accent_color : String := "#C9A227"

/-- The string `get_fotz_css()` returns, with the two branding colors it
interpolates. -/
def get_fotz_css : String :=
  "\n@import url('https://fonts.googleapis.com/css2?family=Open+Sans:wght@400;600;700&display=swap');\n\n@page \x7b\n    size: A4;\n    margin: 2cm 2cm 2.5cm 2cm;\n    @bottom-center \x7b\n        content: counter(page);\n        font-family: 'Open Sans', sans-serif;\n        font-size: 10pt;\n        color: #666;\n    \x7d\n\x7d\n\nbody \x7b\n    font-family: 'Open Sans', Arial, sans-serif;\n    font-size: 11pt;\n    line-height: 1.6;\n    color: #333;\n    text-align: justify;\n\x7d\n\nh1 \x7b\n    font-size: 24pt;\n    color: " ++
  primary_color ++
  ";\n    margin-top: 40pt;\n    margin-bottom: 20pt;\n    page-break-before: always;\n\x7d\n\nh2 \x7b\n    font-size: 18pt;\n    color: " ++
  primary_color ++
  ";\n    margin-top: 30pt;\n    margin-bottom: 15pt;\n    border-bottom: 2px solid " ++
  primary_color ++
  ";\n    padding-bottom: 5pt;\n\x7d\n\nh3 \x7b\n    font-size: 14pt;\n    color: " ++
  secondary_color ++
  ";\n    margin-top: 20pt;\n    margin-bottom: 10pt;\n\x7d\n\nh4 \x7b\n    font-size: 12pt;\n    color: " ++
  secondary_color ++
  ";\n    font-weight: bold;\n    margin-top: 15pt;\n    margin-bottom: 8pt;\n\x7d\n\np \x7b\n    margin-bottom: 10pt;\n    text-align: justify;\n\x7d\n\nstrong \x7b\n    color: " ++
  secondary_color ++
  ";\n\x7d\n\na \x7b\n    color: " ++
  secondary_color ++
  ";\n    text-decoration: underline;\n\x7d\n\nblockquote \x7b\n    border-left: 4px solid " ++
  primary_color ++
  ";\n    margin: 20pt 0;\n    padding: 15pt 20pt;\n    background-color: #f9f9f9;\n    font-style: italic;\n    color: " ++
  secondary_color ++
  ";\n\x7d\n\ntable \x7b\n    width: 100%;\n    border-collapse: collapse;\n    margin: 15pt 0;\n    font-size: 10pt;\n\x7d\n\nth \x7b\n    background-color: " ++
  primary_color ++
  ";\n    color: white;\n    padding: 10pt 8pt;\n    text-align: left;\n    font-weight: bold;\n\x7d\n\ntd \x7b\n    padding: 8pt;\n    border: 1px solid #ddd;\n\x7d\n\ntr:nth-child(even) \x7b\n    background-color: #f5f5f5;\n\x7d\n\nul, ol \x7b\n    margin-left: 20pt;\n    margin-bottom: 10pt;\n\x7d\n\nli \x7b\n    margin-bottom: 5pt;\n\x7d\n\n.toc \x7b\n    margin: 30pt 0;\n\x7d\n\n.toc-item \x7b\n    display: flex;\n    justify-content: space-between;\n    padding: 8pt 0;\n    border-bottom: 1px dotted #ccc;\n\x7d\n\n.toc-title \x7b\n    color: " ++
  secondary_color ++
  ";\n\x7d\n\n.toc-page \x7b\n    color: #666;\n\x7d\n"

/-- `generate_toc_html` (lines 357-375). -/
def generate_toc_html (toc_items : List TocItem) : String :=
  let base := "\n    <h2 style=\"color: " ++ primary_color ++
    "; border-bottom: 2px solid " ++ primary_color ++
    "; padding-bottom: 10px; page-break-before: avoid;\">\n        SPIS TREŚCI\n    </h2>\n    <div class=\"toc\">\n    "
  let rows := toc_items.foldl (fun acc item =>
    acc ++ "\n        <div class=\"toc-item\">\n            <span class=\"toc-title\">" ++
      item.title ++ "</span>\n            <span class=\"toc-page\">" ++
      toString item.page ++ "</span>\n        </div>\n        ") base
  rows ++ "</div>"

/-- The trailing logo block `generate_pdf_from_content` embeds into the
content markup when the logo was fetched (lines 397-405): a centered,
page-break-forced block with the image, the caption and the fixed link. -/
def logo_block (logo_path : String) : String :=
  "\n            <div style=\"page-break-before: always; text-align: center; padding-top: 200pt;\">\n                <img src=\"file://" ++
    logo_path ++
    "\" style=\"width: 150pt; height: auto;\" />\n                <p style=\"margin-top: 30pt; font-size: 14pt; color: " ++
    secondary_color ++
    ";\">\n                    FOTZ Studio\n                </p>\n                <p><a href=\"https://fotz.pl\" style=\"color: " ++
    secondary_color ++ ";\">fotz.pl</a></p>\n            </div>\n            "

/-- Step 4 of `generate_pdf_from_content` (lines 392-405): the logo html
is the block when a logo url was supplied (truthily) and its fetch
succeeded, and the empty string otherwise. -/
def logo_html (net : String → NetResult) (req : PdfRequest) : String :=
  if truthyStr req.logo_url then
    match download_image net (req.logo_url.getD "") with
    | some p => logo_block p
    | none => ""
  else ""

/-- Step 3 of `generate_pdf_from_content`: the toc html when entries were
supplied (truthily). -/
def toc_html_of (req : PdfRequest) : String :=
  if truthyList req.toc_items then generate_toc_html (req.toc_items.getD []) else ""

/-- The document skeleton of step 5 of `generate_pdf_from_content`
(lines 408-420): head with title and style, then body holding the toc
slot, the content slot and the logo slot, in that order. -/
def full_html_shell (title toc content logo : String) : String :=
  "<!DOCTYPE html>\n<html lang=\"pl\">\n<head>\n    <meta charset=\"UTF-8\">\n    <title>" ++
    title ++ "</title>\n    <style>" ++ get_fotz_css ++
    "</style>\n</head>\n<body>\n" ++ toc ++ "\n" ++ content ++ "\n" ++
    logo ++ "\n</body>\n</html>"

/-- Step 5 of `generate_pdf_from_content` (lines 408-420): the full HTML
document handed to the renderer; `md` is the markdown-to-html converter
(an external library, kept abstract). -/
def build_full_html (md : String → String) (net : String → NetResult)
    (req : PdfRequest) : String :=
  full_html_shell req.title (toc_html_of req)
    (md (process_content req.content req.keywords_to_bold))
    (logo_html net req)

/-! Steps 8-9 of `generate_pdf_from_content` (lines 432-457): the
`PdfMerger` appends, modelled as the ordered list of merged documents. -/

/-- One document appended to the merger: a composed full-page image pdf,
or the rendered content pdf. -/
inductive MergedPart
  | imagePage (image : String)
  | contentPdf (html : String)

/-- The cover append (lines 435-440): attempted only when a cover url was
supplied (truthily), skipped when the fetch fails. -/
def cover_parts (net : String → NetResult) (req : PdfRequest) : List MergedPart :=
  if truthyStr req.cover_url then
    match download_image net (req.cover_url.getD "") with
    | some p => [MergedPart.imagePage p]
    | none => []
  else []

/-- The infographic appends (lines 446-452): in the supplied order, one
composed page per successful fetch, failures skipped. -/
def infographic_parts (net : String → NetResult) (req : PdfRequest) : List MergedPart :=
  if truthyList req.infographic_urls then
    (req.infographic_urls.getD []).filterMap
      (fun u => (download_image net u).map MergedPart.imagePage)
  else []

/-- The full merge order of `generate_pdf_from_content`: cover (when
fetched), then the entire content document, then the infographic pages. -/
def generate_pdf_parts (md : String → String) (net : String → NetResult)
    (req : PdfRequest) : List MergedPart :=
  cover_parts net req ++
    [MergedPart.contentPdf (build_full_html md net req)] ++
    infographic_parts net req

/-! The zip endpoint `generate_zip` (lines 507-585), modelled as the
ordered list of archive entries it writes. -/

/-- Content of one archive entry: the generated pdf document, raw
downloaded image bytes, or utf-8 encoded text. -/
inductive ZipContent
  | pdfDoc (parts : List MergedPart)
  | fileBytes (body : String)
  | textBytes (text : String)

/-- The `PdfRequest` that `generate_zip` builds from its `ZipRequest`
(lines 521-531). -/
def pdf_request_of (req : ZipRequest) : PdfRequest :=
  { content := req.pdf_content, title := req.title, subtitle := req.subtitle,
    author := req.author, toc_items := req.toc_items,
    keywords_to_bold := req.keywords_to_bold, cover_url := req.cover_url,
    infographic_urls := req.infographic_urls, logo_url := req.logo_url }

/-- The archive entries `generate_zip` writes, in writing order: the
document, then cover, mockup, infographics (1-based index over the
supplied order), blog post, shop description, logo — each only when its
input is truthy and (for remote assets) the fetch succeeded. -/
def generate_zip_entries (md : String → String) (net : String → NetResult)
    (req : ZipRequest) : List (String × ZipContent) :=
  [(safe_title req.title ++ ".pdf",
    ZipContent.pdfDoc (generate_pdf_parts md net (pdf_request_of req)))]
  ++ (if truthyStr req.cover_url then
        match download_image net (req.cover_url.getD "") with
        | some b => [("cover_a4.png", ZipContent.fileBytes b)]
        | none => []
      else [])
  ++ (if truthyStr req.mockup_url then
        match download_image net (req.mockup_url.getD "") with
        | some b => [("mockup_tablet.png", ZipContent.fileBytes b)]
        | none => []
      else [])
  ++ (if truthyList req.infographic_urls then
        (req.infographic_urls.getD []).enum.filterMap (fun iu =>
          (download_image net iu.2).map (fun b =>
            ("infographic_" ++ toString (iu.1 + 1) ++ ".png", ZipContent.fileBytes b)))
      else [])
  ++ (if truthyStr req.blog_post then
        [("blog_post.md", ZipContent.textBytes (req.blog_post.getD ""))]
      else [])
  ++ (if truthyStr req.shop_description then
        [("opis_sklepu.md", ZipContent.textBytes (req.shop_description.getD ""))]
      else [])
  ++ (if truthyStr req.logo_url then
        match download_image net (req.logo_url.getD "") with
        | some b => [("logo_fotz.png", ZipContent.fileBytes b)]
        | none => []
      else [])

/-! `create_full_page_image_pdf` (lines 334-354): the page geometry, with
the real-number arithmetic modelled over the rationals. -/

/-- The placement `create_full_page_image_pdf` computes for the image on
the page. -/
structure FullPageLayout where
  scale : ℚ
  new_width : ℚ
  new_height : ℚ
  x : ℚ
  y : ℚ

/-- The geometry of `create_full_page_image_pdf`: cover-fit scale and
centering offsets, as computed from the page and image dimensions. -/
def create_full_page_image_pdf (page_width page_height img_width img_height : ℚ) :
    FullPageLayout :=
  let scale_w := page_width / img_width
  let scale_h := page_height / img_height
  let scale := max scale_w scale_h
  let new_width := img_width * scale
  let new_height := img_height * scale
  { scale := scale, new_width := new_width, new_height := new_height,
    x := (page_width - new_width) / 2, y := (page_height - new_height) / 2 }

/-! Claim-side definitions: each formalizes a claim of the specification
in the claim's own words, to be compared with the definitions above that
embed the source. -/

/-- Claim C1's first-word rule as stated: first letter uppercased, the
remaining letters as given. -/
def claimFirstAsGiven : List Char → List Char
  | [] => []
  | c :: cs => toUpperX c :: cs

/-- Claim C1's amended first-word rule: first letter uppercased and (as
`str.capitalize` does) the remaining letters lowercased. -/
def claimFirstCapitalize : List Char → List Char
  | [] => []
  | c :: cs => toUpperX c :: cs.map toLowerX

/-- Claim C1's later-word rule: the registry's canonical casing on a
case-insensitive match, all-lowercase otherwise. -/
def claimLaterWord (w : List Char) : List Char :=
  match properNounsCore.find? (fun pn => lowerStr pn == lowerStr w) with
  | some pn => pn
  | none => lowerStr w

/-- Claim C1 as stated, per line: only a line carrying a depth-2-to-4
marker at line start (marker, then whitespace, then title text on the
same line) is transformed — marker plus a single space, first word
through the claim's first-word rule, later words through the registry
rule; every other line, an empty heading included, is unchanged. -/
def claimHeadingLine (firstFn : List Char → List Char) (line : List Char) : List Char :=
  let depth := (line.takeWhile (fun c => c == '#')).length
  let body := line.drop depth
  if 2 ≤ depth ∧ depth ≤ 4 ∧ headIsWs body = true then
    match splitWs body with
    | [] => line
    | w :: ws =>
      List.replicate depth '#' ++ ' ' :: joinSp (firstFn w :: ws.map claimLaterWord)
  else line

/-- The title transform exactly as claim C1 states it (line by line,
first word's remaining letters as given). -/
def standardizeTitlesClaim (content : String) : String :=
  String.mk (joinLines ((splitLines content.data).map (claimHeadingLine claimFirstAsGiven)))

/-- The title transform as claim C1 reads once amended: the first word is
capitalized with the rest lowercased, and the marker's whitespace may
cross line breaks, a marker-only heading swallowing the following blank
lines together with the next text line, which becomes its title (the
scan of `stdLinesGo`). -/
def standardizeTitlesAmended (content : String) : String :=
  String.mk (joinLines (stdLines claimFirstCapitalize claimLaterWord (splitLines content.data)))

/-- Claim C2's suffix class as stated: lowercase alphabetic characters
(Polish extended letters included) only. -/
def claimBoldLowerOnly (c : Char) : Bool := suffixClassChars.contains c

/-- Claim C2's suffix class once amended: alphabetic characters of either
case, since the case-insensitive flag applies to the class as well. -/
def claimBoldEitherCase (c : Char) : Bool :=
  suffixClassChars.contains c || upperLetterChars.contains c

/-- The keyword-emphasis transform exactly as claim C2 states it. -/
def applyBoldClaim (content : String) (keywords : List String) : String :=
  boldEngine claimBoldLowerOnly content keywords

/-- The keyword-emphasis transform as claim C2 reads once amended. -/
def applyBoldAmended (content : String) (keywords : List String) : String :=
  boldEngine claimBoldEitherCase content keywords

/-- Claim C3's assembled document: the composed cover page exactly when a
cover url was supplied (non-empty) and its fetch succeeded, then the
entire content document, then one composed page per infographic url whose
fetch succeeded, in the supplied order. -/
def assembledDocClaim (md : String → String) (net : String → NetResult)
    (req : PdfRequest) : List MergedPart :=
  (match req.cover_url with
   | some u =>
     if u ≠ "" then
       match download_image net u with
       | some p => [MergedPart.imagePage p]
       | none => []
     else []
   | none => []) ++
  [MergedPart.contentPdf (build_full_html md net req)] ++
  (req.infographic_urls.getD []).filterMap
    (fun u => (download_image net u).map MergedPart.imagePage)

/-- Claim C4's expected archive entry names, in the claim's listing
order: document, cover, mockup, infographics (1-based index over the
supplied order), logo, blog post, shop text. -/
def zipNamesClaim (net : String → NetResult) (req : ZipRequest) : List String :=
  [safe_title req.title ++ ".pdf"]
  ++ (if truthyStr req.cover_url ∧ (download_image net (req.cover_url.getD "")).isSome
      then ["cover_a4.png"] else [])
  ++ (if truthyStr req.mockup_url ∧ (download_image net (req.mockup_url.getD "")).isSome
      then ["mockup_tablet.png"] else [])
  ++ (if truthyList req.infographic_urls then
        (req.infographic_urls.getD []).enum.filterMap (fun iu =>
          if (download_image net iu.2).isSome
          then some ("infographic_" ++ toString (iu.1 + 1) ++ ".png") else none)
      else [])
  ++ (if truthyStr req.logo_url ∧ (download_image net (req.logo_url.getD "")).isSome
      then ["logo_fotz.png"] else [])
  ++ (if truthyStr req.blog_post then ["blog_post.md"] else [])
  ++ (if truthyStr req.shop_description then ["opis_sklepu.md"] else [])

/-- Claim C5's sanitizer as stated: strip the non-kept characters, then
replace each whitespace RUN with a single underscore. -/
def collapseWsUnderscore : List Char → List Char
  | [] => []
  | c :: cs =>
    if isWsChar c then
      match cs with
      | d :: _ =>
        if isWsChar d then collapseWsUnderscore cs else '_' :: collapseWsUnderscore cs
      | [] => ['_']
    else c :: collapseWsUnderscore cs

/-- The sanitizer exactly as claim C5 states it. -/
def safeTitleClaim (title : String) : String :=
  String.mk (collapseWsUnderscore (title.data.filter keepTitleChar))

/-- The sanitizer as claim C5 reads once amended: strip the non-kept
characters and replace each space character, one for one, by an
underscore (other whitespace stays, runs are not collapsed). -/
def safeTitleAmended (title : String) : String :=
  String.mk (title.data.filterMap (fun c =>
    if keepTitleChar c then some (if c == ' ' then '_' else c) else none))

/-- Claim C6's fetch contract as stated: the fetched body on a 2xx
status, absent on every other outcome. -/
def downloadClaim (net : String → NetResult) (url : String) : Option String :=
  match net url with
  | .ok status body => if 200 ≤ status ∧ status < 300 then some body else none
  | .connError => none
  | .timeout => none

/-- Claim C6's fetch contract once amended: absent on a connection
error, a timeout, or a status in 400-599 (`raise_for_status`); any other
status is saved as present. -/
def downloadAmended (net : String → NetResult) (url : String) : Option String :=
  match net url with
  | .ok status body =>
    if status < 400 then some body
    else if status < 600 then none
    else some body
  | .connError => none
  | .timeout => none

/-- Whether `needle` stands at the front of `hay`. -/
def leadsWith : List Char → List Char → Bool
  | [], _ => true
  | _ :: _, [] => false
  | a :: as, b :: bs => a == b && leadsWith as bs

/-- Whether `needle` occurs somewhere inside `hay` (substring test, for
stating what the logo block contains). -/
def containsSub (needle : List Char) : List Char → Bool
  | [] => leadsWith needle []
  | c :: cs => leadsWith needle (c :: cs) || containsSub needle cs

/-- Substring test on strings. -/
def strContains (needle hay : String) : Bool := containsSub needle.data hay.data

/-- Whether a merged part is a composed full-page image (to state that
the merge never carries a logo page). -/
def isImagePage : MergedPart → Bool
  | MergedPart.imagePage _ => true
  | MergedPart.contentPdf _ => false

/-- The match condition of the heading scan at a line: a leading `#` run
of length 2 to 4, followed on the line by whitespace, or ending the line
with a following line available (the newline itself being the matched
whitespace). -/
def stdCond (line : List Char) (rest : List (List Char)) : Prop :=
  2 ≤ (line.takeWhile (fun c => c == '#')).length ∧
  (line.takeWhile (fun c => c == '#')).length ≤ 4 ∧
  (headIsWs (line.dropWhile (fun c => c == '#')) = true ∨
    (line.dropWhile (fun c => c == '#') = [] ∧ rest ≠ []))

/-!  Helper lemmas, then one theorem per claim.  -/

/-- `dropWhile` drops exactly the length of `takeWhile`. -/
theorem dropWhile_eq_drop_len {α : Type} (p : α → Bool) (l : List α) :
    l.dropWhile p = l.drop (l.takeWhile p).length := by
  induction l with
  | nil => rfl
  | cons c cs ih =>
    by_cases h : p c <;> simp [List.dropWhile_cons, List.takeWhile_cons, h, ih]

/-- Mapping after a filter is one filterMap. -/
theorem filter_map_eq_filterMap {α β : Type} (p : α → Bool) (f : α → β) (l : List α) :
    (l.filter p).map f = l.filterMap (fun a => if p a then some (f a) else none) := by
  induction l with
  | nil => rfl
  | cons c cs ih => by_cases h : p c <;> simp [List.filter_cons, h, ih]

/-- The word registry lookup of the code (`any`, then a first-match scan)
computes the claim's later-word rule. -/
theorem titleWordTransform_eq_claimLaterWord :
    titleWordTransform = claimLaterWord := by
  funext w
  unfold titleWordTransform claimLaterWord
  rcases h : properNounsCore.find? (fun pn => lowerStr pn == lowerStr w) with _ | pn
  · have hnone : properNounsCore.any (fun pn => lowerStr pn == lowerStr w) = false := by
      rw [List.any_eq_false]
      intro pn hpn
      simpa using List.find?_eq_none.mp h pn hpn
    simp [hnone]
  · have hp := List.find?_some h
    have hsome : properNounsCore.any (fun pn => lowerStr pn == lowerStr w) = true := by
      rw [List.any_eq_true]
      exact ⟨pn, List.mem_of_find?_eq_some h, hp⟩
    simp [hsome]

/-- The two first-word rules that coincide: `str.capitalize` and the
amended claim wording. -/
theorem capitalizePy_eq_claimFirstCapitalize :
    capitalizePy = claimFirstCapitalize := by
  funext w
  cases w <;> rfl

/-- Uppercase letters are exactly the first components of the case
table. -/
theorem upperLetterChars_eq_map_fst :
    casePairs.map Prod.fst = upperLetterChars := by decide

/-- Lowercasing an uppercase letter lands in the lowercase class. -/
theorem toLowerX_mem_of_upper :
    ∀ c ∈ upperLetterChars, toLowerX c ∈ suffixClassChars := by decide

/-- A character that is not an uppercase letter of the modelled alphabet
is fixed by lowercasing. -/
theorem toLowerX_eq_self (c : Char) (hc : c ∉ upperLetterChars) : toLowerX c = c := by
  unfold toLowerX
  have hnone : casePairs.find? (fun p => p.1 == c) = none := by
    rw [List.find?_eq_none]
    intro p hp hbeq
    exact hc (upperLetterChars_eq_map_fst ▸
      List.mem_map.mpr ⟨p, hp, by simpa using hbeq⟩)
  rw [hnone]

/-- The suffix class under `re.IGNORECASE` is the class closed under
case: claim C2's amended wording. -/
theorem inBoldClassCI_eq_either : inBoldClassCI = claimBoldEitherCase := by
  funext c
  unfold inBoldClassCI claimBoldEitherCase inBoldClass
  by_cases hl : c ∈ suffixClassChars
  · simp [hl]
  · by_cases hu : c ∈ upperLetterChars
    · have h1 := toLowerX_mem_of_upper c hu
      simp [hl, hu, h1]
    · rw [toLowerX_eq_self c hu]
      simp [hl, hu]

/-- C7: the full-page composer uses the cover-fit scale
`max (W/imgW, H/imgH)`, the scaled image covers the page on both axes,
and the image is centered (equal overflow on each side of each axis). -/
theorem c7_cover_fit_scaling (W H iw ih : ℚ) (hiw : 0 < iw) (hih : 0 < ih) :
    (create_full_page_image_pdf W H iw ih).scale = max (W / iw) (H / ih) ∧
    W ≤ (create_full_page_image_pdf W H iw ih).new_width ∧
    H ≤ (create_full_page_image_pdf W H iw ih).new_height ∧
    2 * (create_full_page_image_pdf W H iw ih).x +
      (create_full_page_image_pdf W H iw ih).new_width = W ∧
    2 * (create_full_page_image_pdf W H iw ih).y +
      (create_full_page_image_pdf W H iw ih).new_height = H := by
  unfold create_full_page_image_pdf
  refine ⟨rfl, ?_, ?_, by ring, by ring⟩
  · have h1 : W / iw ≤ max (W / iw) (H / ih) := le_max_left _ _
    calc W = W / iw * iw := by rw [div_mul_cancel₀ _ (ne_of_gt hiw)]
    _ ≤ max (W / iw) (H / ih) * iw := by
        exact mul_le_mul_of_nonneg_right h1 (le_of_lt hiw)
    _ = iw * max (W / iw) (H / ih) := by ring
  · have h1 : H / ih ≤ max (W / iw) (H / ih) := le_max_right _ _
    calc H = H / ih * ih := by rw [div_mul_cancel₀ _ (ne_of_gt hih)]
    _ ≤ max (W / iw) (H / ih) * ih := by
        exact mul_le_mul_of_nonneg_right h1 (le_of_lt hih)
    _ = ih * max (W / iw) (H / ih) := by ring

/-- Witness for C7 at a concrete page and image. -/
theorem c7_cover_fit_scaling_witness :
    (0 : ℚ) < 100 ∧ (0 : ℚ) < 200 ∧
    (595 : ℚ) ≤ (create_full_page_image_pdf 595 842 100 200).new_width ∧
    (842 : ℚ) ≤ (create_full_page_image_pdf 595 842 100 200).new_height :=
  ⟨by norm_num, by norm_num,
   (c7_cover_fit_scaling 595 842 100 200 (by norm_num) (by norm_num)).2.1,
   (c7_cover_fit_scaling 595 842 100 200 (by norm_num) (by norm_num)).2.2.1⟩

/-- C5 as stated is refuted: the code replaces each space one for one
(`.replace(' ', '_')`), it does not collapse whitespace runs — on the
title `"a  b"` the code yields `"a__b"`, the claimed sanitizer `"a_b"`. -/
theorem c5_counterexample :
    safe_title "a  b" = "a__b" ∧ safeTitleClaim "a  b" = "a_b" ∧
    safe_title "a  b" ≠ safeTitleClaim "a  b" := by
  refine ⟨by decide, by decide, by decide⟩

/-- C5 amended: the sanitizer strips every character that is not
alphanumeric, underscore, hyphen or whitespace and then replaces each
space character (one for one) by an underscore; on the spec's example
title it still produces the documented name. -/
theorem c5_sanitize_amended :
    (∀ title : String, safe_title title = safeTitleAmended title) ∧
    safe_title "Mój Ebook: Wersja 2!" = "Mój_Ebook_Wersja_2" := by
  constructor
  · intro t
    unfold safe_title safeTitleAmended
    rw [filter_map_eq_filterMap]
  · decide

/-- C10: a keyword list holding the empty string changes the text — in a
paragraph starting with letters the leading run (up to six letters) is
wrapped, and in a paragraph starting with a non-letter an empty bold
marker pair is inserted. -/
theorem c10_empty_keyword :
    apply_bold_keywords "hello world\n\n123 abc" [""] =
      "**hello** world\n\n****123 abc" ∧
    apply_bold_keywords "hello world\n\n123 abc" [""] ≠
      "hello world\n\n123 abc" := by
  refine ⟨by decide, by decide⟩

/-- C2 as stated is refuted: `re.IGNORECASE` applies to the suffix class
too, so on `"CATS"` with keyword `"cat"` the code wraps the uppercase
`S` as well, while the claim's lowercase-only window stops before it. -/
theorem c2_counterexample :
    apply_bold_keywords "CATS" ["cat"] = "**CATS**" ∧
    applyBoldClaim "CATS" ["cat"] = "**CAT**S" ∧
    apply_bold_keywords "CATS" ["cat"] ≠ applyBoldClaim "CATS" ["cat"] := by
  refine ⟨by decide, by decide, by decide⟩

/-- C2 amended: with the suffix window reading "zero to six alphabetic
characters of either case (the case-insensitive flag applies to the
class)", the transform is exactly the claimed one: keywords in order,
paragraphs independent, at most the first non-adjacent occurrence
wrapped. -/
theorem c2_bold_keywords_amended (content : String) (keywords : List String)
    (_hk : keywords ≠ []) :
    apply_bold_keywords content keywords = applyBoldAmended content keywords := by
  unfold apply_bold_keywords applyBoldAmended
  rw [inBoldClassCI_eq_either]

/-- Witness for C2 at a concrete text and keyword list. -/
theorem c2_bold_keywords_amended_witness :
    (["kot"] ≠ ([] : List String)) ∧
    apply_bold_keywords "Kot i pies" ["kot"] = applyBoldAmended "Kot i pies" ["kot"] :=
  ⟨by decide, c2_bold_keywords_amended "Kot i pies" ["kot"] (by decide)⟩

/-- C6 as stated is refuted: `raise_for_status` raises only for statuses
400-599, so a non-2xx status below 400 (here 304) is saved as a present
asset, while the claim demands absence on every non-2xx status. -/
theorem c6_counterexample :
    download_image (fun _ => NetResult.ok 304 "x") "u" = some "x" ∧
    downloadClaim (fun _ => NetResult.ok 304 "x") "u" = none := by
  refine ⟨by decide, by decide⟩

/-- C6 amended: the fetch returns absent (never raising) on a connection
error, a timeout, or an HTTP status in 400-599; consequently a request
whose cover fetch fails, with no infographics requested, still produces
the final document as the content document alone, with no cover page. -/
theorem c6_fetch_absence_degrades :
    (∀ (net : String → NetResult) (url : String),
      download_image net url = downloadAmended net url) ∧
    (∀ (md : String → String) (net : String → NetResult) (req : PdfRequest)
      (u : String), req.cover_url = some u → u ≠ "" →
      download_image net u = none → req.infographic_urls = none →
      generate_pdf_parts md net req =
        [MergedPart.contentPdf (build_full_html md net req)]) := by
  constructor
  · intro net url
    unfold download_image downloadAmended
    cases hnet : net url with
    | ok status body =>
      dsimp only
      rcases Nat.lt_or_ge status 400 with h4 | h4
      · rw [if_neg (by omega), if_pos h4]
      · rcases Nat.lt_or_ge status 600 with h6 | h6
        · rw [if_pos ⟨h4, h6⟩, if_neg (by omega), if_pos h6]
        · rw [if_neg (by omega), if_neg (by omega), if_neg (by omega)]
    | connError => rfl
    | timeout => rfl
  · intro md net req u hc hu hdl hinf
    unfold generate_pdf_parts cover_parts infographic_parts
    rw [hc, hinf]
    simp [truthyStr, truthyList, hu, hdl]

/-- Witness for C6 at a concrete request whose cover fetch times out. -/
theorem c6_fetch_absence_degrades_witness :
    generate_pdf_parts (fun s => s) (fun _ => NetResult.timeout)
      { content := "# t", title := "T", cover_url := some "http://c" } =
      [MergedPart.contentPdf (build_full_html (fun s => s)
        (fun _ => NetResult.timeout)
        { content := "# t", title := "T", cover_url := some "http://c" })] :=
  c6_fetch_absence_degrades.2 (fun s => s) (fun _ => NetResult.timeout)
    { content := "# t", title := "T", cover_url := some "http://c" }
    "http://c" rfl (by decide) rfl rfl

/-- C3: the final document is exactly cover page (iff supplied and
fetched), then the entire content document, then the fetched infographic
pages in supplied order, failures skipped without reordering. -/
theorem c3_merge_order (md : String → String) (net : String → NetResult)
    (req : PdfRequest) :
    generate_pdf_parts md net req = assembledDocClaim md net req := by
  unfold generate_pdf_parts assembledDocClaim cover_parts infographic_parts
  congr 1
  · rcases hc : req.cover_url with _ | u
    · simp [truthyStr]
    · by_cases hu : u = "" <;> simp [truthyStr, hu]
  · rcases hi : req.infographic_urls with _ | l
    · simp [truthyList]
    · rcases l with _ | ⟨x, xs⟩ <;> simp [truthyList]

/-- If the needle leads a list it leads any extension. -/
theorem leadsWith_append (n s t : List Char) (h : leadsWith n s = true) :
    leadsWith n (s ++ t) = true := by
  induction n generalizing s with
  | nil => rfl
  | cons a as ih =>
    cases s with
    | nil => simp [leadsWith] at h
    | cons b bs =>
      simp only [leadsWith, Bool.and_eq_true] at h ⊢
      exact ⟨h.1, ih bs h.2⟩

/-- A needle leads its own extensions. -/
theorem leadsWith_self (n t : List Char) : leadsWith n (n ++ t) = true := by
  induction n with
  | nil => rfl
  | cons a as ih => simpa [leadsWith] using ih

/-- A substring of the front part is a substring of the whole. -/
theorem containsSub_append_left (n a b : List Char) (h : containsSub n a = true) :
    containsSub n (a ++ b) = true := by
  induction a with
  | nil =>
    cases b with
    | nil => simpa using h
    | cons c cs =>
      simp only [containsSub] at h
      simp only [List.nil_append, containsSub, Bool.or_eq_true]
      exact Or.inl (leadsWith_append n [] (c :: cs) h)
  | cons c cs ih =>
    simp only [containsSub, Bool.or_eq_true] at h
    simp only [List.cons_append, containsSub, Bool.or_eq_true]
    rcases h with h | h
    · exact Or.inl (by simpa using leadsWith_append n (c :: cs) b h)
    · exact Or.inr (ih h)

/-- A substring of the back part is a substring of the whole. -/
theorem containsSub_append_right (n a b : List Char) (h : containsSub n b = true) :
    containsSub n (a ++ b) = true := by
  induction a with
  | nil => simpa using h
  | cons c cs ih =>
    simp only [List.cons_append, containsSub, Bool.or_eq_true]
    exact Or.inr ih

/-- Any list holds itself as a substring. -/
theorem containsSub_self_append (n t : List Char) :
    containsSub n (n ++ t) = true := by
  cases hn : n ++ t with
  | nil => cases n <;> simp_all [containsSub, leadsWith]
  | cons c cs =>
    simp only [containsSub, Bool.or_eq_true]
    exact Or.inl (hn ▸ leadsWith_self n t)

/-- C8: a successfully fetched logo is embedded into the content markup
before rendering — the full html is the shell with the logo block in the
trailing slot after the content, the block carrying the image reference,
the caption and the fixed link; the merge list never gains a part from
the logo (its image pages are exactly cover and infographics, whatever
the logo url is); and a failed logo fetch leaves the html as if no logo
url had been supplied. -/
theorem c8_logo_embedding (md : String → String) (net : String → NetResult)
    (req : PdfRequest) (u : String) :
    (req.logo_url = some u → u ≠ "" → ∀ p, download_image net u = some p →
      build_full_html md net req =
        full_html_shell req.title (toc_html_of req)
          (md (process_content req.content req.keywords_to_bold)) (logo_block p) ∧
      strContains "<img src=\"file://" (logo_block p) = true ∧
      strContains "FOTZ Studio" (logo_block p) = true ∧
      strContains "https://fotz.pl" (logo_block p) = true) ∧
    (∀ v, generate_pdf_parts md net { req with logo_url := v } =
      cover_parts net req ++
        [MergedPart.contentPdf (build_full_html md net { req with logo_url := v })] ++
        infographic_parts net req) ∧
    ((generate_pdf_parts md net req).filter isImagePage =
      cover_parts net req ++ infographic_parts net req) ∧
    (req.logo_url = some u → u ≠ "" → download_image net u = none →
      build_full_html md net req = build_full_html md net { req with logo_url := none }) := by
  refine ⟨?_, ?_, ?_, ?_⟩
  · intro h1 h2 p h3
    have hlogo : logo_html net req = logo_block p := by
      unfold logo_html
      rw [h1]
      simp [truthyStr, h2, h3]
    refine ⟨?_, ?_, ?_, ?_⟩
    · unfold build_full_html
      rw [hlogo]
    · unfold strContains logo_block
      simp only [String.data_append, List.append_assoc]
      exact containsSub_append_left _ _ _ (by decide)
    · unfold strContains logo_block
      simp only [String.data_append, List.append_assoc]
      refine containsSub_append_right _ _ _ ?_
      refine containsSub_append_right _ _ _ ?_
      refine containsSub_append_right _ _ _ ?_
      refine containsSub_append_right _ _ _ ?_
      exact containsSub_append_left _ _ _ (by decide)
    · unfold strContains logo_block
      simp only [String.data_append, List.append_assoc]
      refine containsSub_append_right _ _ _ ?_
      refine containsSub_append_right _ _ _ ?_
      refine containsSub_append_right _ _ _ ?_
      refine containsSub_append_right _ _ _ ?_
      exact containsSub_append_left _ _ _ (by decide)
  · intro v
    rfl
  · unfold generate_pdf_parts
    rw [List.filter_append, List.filter_append]
    have hc : (cover_parts net req).filter isImagePage = cover_parts net req := by
      unfold cover_parts
      by_cases h : truthyStr req.cover_url = true
      · rcases hdl : download_image net (req.cover_url.getD "") with _ | p <;>
          simp [h, hdl, isImagePage]
      · simp [h]
    have hi : (infographic_parts net req).filter isImagePage = infographic_parts net req := by
      apply List.filter_eq_self.mpr
      intro x hx
      unfold infographic_parts at hx
      by_cases h : truthyList req.infographic_urls = true
      · rw [if_pos h] at hx
        obtain ⟨u, _, hu⟩ := List.mem_filterMap.mp hx
        obtain ⟨b, _, hb⟩ := Option.map_eq_some'.mp hu
        rw [← hb]
        rfl
      · rw [if_neg h] at hx
        cases hx
    rw [hc, hi]
    simp [isImagePage]
  · intro h1 h2 h3
    have hlogo : logo_html net req = "" := by
      unfold logo_html
      rw [h1]
      simp [truthyStr, h2, h3]
    have hlogo2 : logo_html net { req with logo_url := none } = "" := by
      unfold logo_html
      simp [truthyStr]
    unfold build_full_html
    rw [hlogo, hlogo2]
    rfl

/-- Witness for C8: a concrete request whose logo fetch succeeds (first
part) and one whose logo fetch fails (last part). -/
theorem c8_logo_embedding_witness :
    (build_full_html (fun s => s) (fun _ => NetResult.ok 200 "LOGO")
      { content := "c", title := "T", logo_url := some "http://l" } =
      full_html_shell "T"
        (toc_html_of { content := "c", title := "T", logo_url := some "http://l" })
        ((fun s => s) (process_content "c" none)) (logo_block "LOGO") ∧
     strContains "FOTZ Studio" (logo_block "LOGO") = true) ∧
    build_full_html (fun s => s) (fun _ => NetResult.connError)
      { content := "c", title := "T", logo_url := some "http://l" } =
      build_full_html (fun s => s) (fun _ => NetResult.connError)
        { content := "c", title := "T", logo_url := none } := by
  constructor
  · have h := (c8_logo_embedding (fun s => s) (fun _ => NetResult.ok 200 "LOGO")
      { content := "c", title := "T", logo_url := some "http://l" } "http://l").1
      rfl (by decide) "LOGO" rfl
    exact ⟨h.1, h.2.2.1⟩
  · exact (c8_logo_embedding (fun s => s) (fun _ => NetResult.connError)
      { content := "c", title := "T", logo_url := some "http://l" } "http://l").2.2.2
      rfl (by decide) rfl

/-- Shape of an optional-download archive block, names only. -/
theorem mapFst_fetchBlock (t : Bool) (o : Option String) (name : String)
    (f : String → ZipContent) :
    (List.map Prod.fst
      (if t then
        (match o with
         | some b => [(name, f b)]
         | none => ([] : List (String × ZipContent)))
       else [])) = (if t ∧ o.isSome then [name] else []) := by
  cases t <;> cases o <;> simp

/-- Shape of an optional-text archive block, names only. -/
theorem mapFst_textBlock (t : Bool) (name : String) (c : ZipContent) :
    (List.map Prod.fst (if t then [(name, c)] else [])) =
      (if t then [name] else []) := by
  cases t <;> simp

/-- Rotating the last three blocks is a permutation. -/
theorem perm_rotate_three (P Bg Sh Lg : List String) :
    (P ++ Bg ++ Sh ++ Lg).Perm (P ++ Lg ++ Bg ++ Sh) := by
  simp only [List.append_assoc]
  refine List.Perm.append_left P ?_
  have h := @List.perm_append_comm String (Bg ++ Sh) Lg
  simpa [List.append_assoc] using h

/-- Names of the infographic block. -/
theorem mapFst_infBlock (net : String → NetResult) (t : Bool) (l : List String) :
    (List.map Prod.fst
      (if t then
        l.enum.filterMap (fun iu =>
          (download_image net iu.2).map (fun b =>
            ("infographic_" ++ toString (iu.1 + 1) ++ ".png", ZipContent.fileBytes b)))
       else [])) =
    (if t then
      l.enum.filterMap (fun iu =>
        if (download_image net iu.2).isSome
        then some ("infographic_" ++ toString (iu.1 + 1) ++ ".png") else none)
     else []) := by
  cases t
  · simp
  · simp only [if_pos, List.map_filterMap]
    congr 1
    funext iu
    cases download_image net iu.2 <;> rfl

/-- C4: the archive holds exactly one entry per supplied (truthy) and
successfully fetched input, named as the claim lists them (document,
cover, mockup, 1-based infographics in supplied order, logo, blog post,
shop text); with the cover, two infographics, the logo, blog text and
shop text all present and fetched (and no mockup), the archive has
exactly 7 entries. -/
theorem c4_zip_entry_names (md : String → String) (net : String → NetResult)
    (req : ZipRequest) (u1 u2 : String) :
    ((generate_zip_entries md net req).map Prod.fst).Perm (zipNamesClaim net req) ∧
    (truthyStr req.cover_url = true →
     (download_image net (req.cover_url.getD "")).isSome = true →
     truthyStr req.mockup_url = false →
     req.infographic_urls = some [u1, u2] →
     (download_image net u1).isSome = true →
     (download_image net u2).isSome = true →
     truthyStr req.logo_url = true →
     (download_image net (req.logo_url.getD "")).isSome = true →
     truthyStr req.blog_post = true →
     truthyStr req.shop_description = true →
     (generate_zip_entries md net req).length = 7) := by
  constructor
  · unfold generate_zip_entries zipNamesClaim
    simp only [List.map_append, List.map_cons, List.map_nil]
    rw [mapFst_fetchBlock, mapFst_fetchBlock, mapFst_fetchBlock,
      mapFst_textBlock, mapFst_textBlock, mapFst_infBlock]
    exact perm_rotate_three _ _ _ _
  · intro hc hcf hm hi hi1 hi2 hl hlf hb hs
    obtain ⟨cb, hcb⟩ := Option.isSome_iff_exists.mp hcf
    obtain ⟨b1, hb1⟩ := Option.isSome_iff_exists.mp hi1
    obtain ⟨b2, hb2⟩ := Option.isSome_iff_exists.mp hi2
    obtain ⟨lb, hlb⟩ := Option.isSome_iff_exists.mp hlf
    unfold generate_zip_entries
    rw [hi]
    simp [hc, hm, hl, hb, hs, hcb, hlb, truthyList, List.enum, List.enumFrom,
      List.filterMap_cons, hb1, hb2]

/-- Witness for C4 at a concrete fully-populated request. -/
theorem c4_zip_entry_names_witness :
    (generate_zip_entries (fun s => s) (fun _ => NetResult.ok 200 "B")
      { pdf_content := "x", title := "T", cover_url := some "http://c",
        infographic_urls := some ["http://i1", "http://i2"],
        logo_url := some "http://l", blog_post := some "b",
        shop_description := some "s" }).length = 7 :=
  (c4_zip_entry_names (fun s => s) (fun _ => NetResult.ok 200 "B")
    { pdf_content := "x", title := "T", cover_url := some "http://c",
      infographic_urls := some ["http://i1", "http://i2"],
      logo_url := some "http://l", blog_post := some "b",
      shop_description := some "s" } "http://i1" "http://i2").2
    (by decide) (by decide) (by decide) rfl (by decide) (by decide)
    (by decide) (by decide) (by decide) (by decide)

/-- C1 as stated is refuted twice over: on `"## ABC"` the code lowercases
the rest of the first word (`str.capitalize`), where the claim keeps the
remaining letters as given; and on `"##\nFoo"` the marker-only heading
swallows the following line (the pattern's `\s+` matches the newline),
where the claim leaves non-heading lines and empty headings unchanged. -/
theorem c1_counterexample :
    (standardize_titles "## ABC" = "## Abc" ∧
     standardizeTitlesClaim "## ABC" = "## ABC" ∧
     standardize_titles "## ABC" ≠ standardizeTitlesClaim "## ABC") ∧
    (standardize_titles "##\nFoo" = "## Foo" ∧
     standardizeTitlesClaim "##\nFoo" = "##\nFoo" ∧
     standardize_titles "##\nFoo" ≠ standardizeTitlesClaim "##\nFoo") := by
  refine ⟨⟨by decide, by decide, by decide⟩, ⟨by decide, by decide, by decide⟩⟩

/-- C1 amended: the transform is the claimed per-heading rewrite with two
repairs — the first word is capitalized with its remaining letters
lowercased, and the marker's whitespace may cross line breaks, a heading
whose marker is followed only by whitespace taking the next
non-whitespace line as its title and swallowing the blank lines
between. -/
theorem c1_title_casing_amended (content : String) :
    standardize_titles content = standardizeTitlesAmended content := by
  unfold standardize_titles standardizeTitlesAmended
  rw [capitalizePy_eq_claimFirstCapitalize, titleWordTransform_eq_claimLaterWord]

/-!  Lemmas for the idempotence of the title transform (claim C9).  -/

/-- Unfolding `splitWs` at a cons. -/
theorem splitWs_cons (c : Char) (cs : List Char) :
    splitWs (c :: cs) =
      if isWsChar c then splitWs cs else splitWsGlue c cs (splitWs cs) := rfl

/-- Gluing onto a whitespace-led remainder opens a fresh token. -/
theorem splitWsGlue_ws (c d : Char) (rest : List Char) (r : List (List Char))
    (hd : isWsChar d = true) : splitWsGlue c (d :: rest) r = [c] :: r := by
  cases r with
  | nil => rfl
  | cons t ts => rw [splitWsGlue, if_pos hd]

/-- Gluing onto a non-whitespace-led remainder extends its first token. -/
theorem splitWsGlue_nonws (c d : Char) (rest : List Char) (t : List Char)
    (ts : List (List Char)) (hd : isWsChar d = false) :
    splitWsGlue c (d :: rest) (t :: ts) = (c :: t) :: ts := by
  rw [splitWsGlue, if_neg (by simp [hd])]

/-- Tokens of `splitWs` are non-empty and free of whitespace. -/
theorem splitWs_wf (cs : List Char) :
    ∀ t ∈ splitWs cs, t ≠ [] ∧ ∀ x ∈ t, isWsChar x = false := by
  induction cs with
  | nil => intro t ht; cases ht
  | cons c cs ih =>
    intro t ht
    by_cases hc : isWsChar c = true
    · rw [splitWs_cons, if_pos hc] at ht
      exact ih t ht
    · rw [splitWs_cons, if_neg hc] at ht
      have hcf : isWsChar c = false := Bool.eq_false_iff.mpr hc
      rcases cs with _ | ⟨d, ds⟩
      · rw [show splitWsGlue c [] (splitWs []) = [[c]] from rfl] at ht
        rcases List.mem_singleton.mp ht with rfl
        exact ⟨by simp, by simp [hcf]⟩
      · rcases hs : splitWs (d :: ds) with _ | ⟨t0, ts⟩
        · rw [hs, show splitWsGlue c (d :: ds) [] = [[c]] from rfl] at ht
          rcases List.mem_singleton.mp ht with rfl
          exact ⟨by simp, by simp [hcf]⟩
        · rw [hs] at ht
          by_cases hd : isWsChar d = true
          · rw [splitWsGlue_ws c d ds _ hd] at ht
            rcases List.mem_cons.mp ht with rfl | ht
            · exact ⟨by simp, by simp [hcf]⟩
            · exact ih t (hs ▸ ht)
          · rw [splitWsGlue_nonws c d ds t0 ts (Bool.eq_false_iff.mpr hd)] at ht
            rcases List.mem_cons.mp ht with rfl | ht
            · have h0 := ih t0 (hs ▸ List.mem_cons_self t0 ts)
              refine ⟨by simp, ?_⟩
              intro x hx
              rcases List.mem_cons.mp hx with rfl | hx
              · exact hcf
              · exact h0.2 x hx
            · exact ih t (hs ▸ List.mem_cons_of_mem t0 ht)

/-- Skipping a leading whitespace character. -/
theorem splitWs_cons_ws (c : Char) (cs : List Char) (hc : isWsChar c = true) :
    splitWs (c :: cs) = splitWs cs := by
  rw [splitWs_cons, if_pos hc]

/-- A token glued to a whitespace-led remainder. -/
theorem splitWs_token_ws (t : List Char) (d : Char) (r : List Char)
    (ht : t ≠ []) (hwf : ∀ x ∈ t, isWsChar x = false) (hd : isWsChar d = true) :
    splitWs (t ++ d :: r) = t :: splitWs (d :: r) := by
  induction t with
  | nil => exact absurd rfl ht
  | cons c cs ih =>
    have hc : isWsChar c = false := hwf c (List.mem_cons_self c cs)
    cases cs with
    | nil =>
      rw [List.cons_append, List.nil_append, splitWs_cons, if_neg (by simp [hc]),
        splitWsGlue_ws c d r _ hd]
    | cons c2 cs2 =>
      have hc2 : isWsChar c2 = false :=
        hwf c2 (List.mem_cons_of_mem c (List.mem_cons_self c2 cs2))
      have ihr := ih (by simp) (fun x hx => hwf x (List.mem_cons_of_mem c hx))
      rw [List.cons_append, splitWs_cons, if_neg (by simp [hc])]
      rw [show (c2 :: cs2) ++ d :: r = c2 :: (cs2 ++ d :: r) from rfl] at ihr ⊢
      rw [ihr, splitWsGlue_nonws c c2 (cs2 ++ d :: r) _ _ hc2]

/-- A lone trailing token. -/
theorem splitWs_token_end (t : List Char)
    (ht : t ≠ []) (hwf : ∀ x ∈ t, isWsChar x = false) :
    splitWs t = [t] := by
  induction t with
  | nil => exact absurd rfl ht
  | cons c cs ih =>
    have hc : isWsChar c = false := hwf c (List.mem_cons_self c cs)
    cases cs with
    | nil => rw [splitWs_cons, if_neg (by simp [hc])]; rfl
    | cons c2 cs2 =>
      have hc2 : isWsChar c2 = false :=
        hwf c2 (List.mem_cons_of_mem c (List.mem_cons_self c2 cs2))
      have ihr := ih (by simp) (fun x hx => hwf x (List.mem_cons_of_mem c hx))
      rw [splitWs_cons, if_neg (by simp [hc]), ihr,
        splitWsGlue_nonws c c2 cs2 _ _ hc2]

/-- Splitting inverts joining for well-formed tokens. -/
theorem splitWs_joinSp (ts : List (List Char))
    (h : ∀ t ∈ ts, t ≠ [] ∧ ∀ x ∈ t, isWsChar x = false) :
    splitWs (joinSp ts) = ts := by
  induction ts with
  | nil => rfl
  | cons t ts ih =>
    rcases ts with _ | ⟨t2, ts2⟩
    · exact splitWs_token_end t (h t (by simp)).1 (h t (by simp)).2
    · have hjoin : joinSp (t :: t2 :: ts2) = t ++ ' ' :: joinSp (t2 :: ts2) := rfl
      rw [hjoin,
        splitWs_token_ws t ' ' (joinSp (t2 :: ts2)) (h t (by simp)).1 (h t (by simp)).2
          (by decide),
        splitWs_cons_ws ' ' _ (by decide),
        ih (fun x hx => h x (List.mem_cons_of_mem t hx))]

/-- No case pair's lowercase side is any pair's uppercase side. -/
theorem casePairs_no_lower_as_upper :
    ∀ p ∈ casePairs, casePairs.find? (fun q => q.2 == p.1) = none := by decide

/-- No case pair's uppercase side is any pair's lowercase side. -/
theorem casePairs_no_upper_as_lower :
    ∀ p ∈ casePairs, casePairs.find? (fun q => q.1 == p.2) = none := by decide

/-- Case-pair characters are never whitespace. -/
theorem casePairs_not_ws :
    ∀ p ∈ casePairs, isWsChar p.1 = false ∧ isWsChar p.2 = false := by decide

/-- Uppercasing twice is uppercasing once. -/
theorem toUpperX_idem (c : Char) : toUpperX (toUpperX c) = toUpperX c := by
  rcases h : casePairs.find? (fun q => q.2 == c) with _ | p
  · have h1 : toUpperX c = c := by unfold toUpperX; rw [h]
    rw [h1]
    exact h1
  · have h1 : toUpperX c = p.1 := by unfold toUpperX; rw [h]
    rw [h1]
    unfold toUpperX
    rw [casePairs_no_lower_as_upper p (List.mem_of_find?_eq_some h)]

/-- Lowercasing twice is lowercasing once. -/
theorem toLowerX_idem (c : Char) : toLowerX (toLowerX c) = toLowerX c := by
  rcases h : casePairs.find? (fun q => q.1 == c) with _ | p
  · have h1 : toLowerX c = c := by unfold toLowerX; rw [h]
    rw [h1]
    exact h1
  · have h1 : toLowerX c = p.2 := by unfold toLowerX; rw [h]
    rw [h1]
    unfold toLowerX
    rw [casePairs_no_upper_as_lower p (List.mem_of_find?_eq_some h)]

/-- Lowercasing keeps a non-whitespace character non-whitespace. -/
theorem toLowerX_not_ws (c : Char) (hc : isWsChar c = false) :
    isWsChar (toLowerX c) = false := by
  rcases h : casePairs.find? (fun q => q.1 == c) with _ | p
  · have h1 : toLowerX c = c := by unfold toLowerX; rw [h]
    rw [h1]
    exact hc
  · have h1 : toLowerX c = p.2 := by unfold toLowerX; rw [h]
    rw [h1]
    exact (casePairs_not_ws p (List.mem_of_find?_eq_some h)).2

/-- Uppercasing keeps a non-whitespace character non-whitespace. -/
theorem toUpperX_not_ws (c : Char) (hc : isWsChar c = false) :
    isWsChar (toUpperX c) = false := by
  rcases h : casePairs.find? (fun q => q.2 == c) with _ | p
  · have h1 : toUpperX c = c := by unfold toUpperX; rw [h]
    rw [h1]
    exact hc
  · have h1 : toUpperX c = p.1 := by unfold toUpperX; rw [h]
    rw [h1]
    exact (casePairs_not_ws p (List.mem_of_find?_eq_some h)).1

/-- Lowercasing a word twice is lowercasing it once. -/
theorem lowerStr_idem (w : List Char) : lowerStr (lowerStr w) = lowerStr w := by
  unfold lowerStr
  rw [List.map_map]
  exact List.map_congr_left (fun c _ => toLowerX_idem c)

/-- `str.capitalize` is idempotent. -/
theorem capitalizePy_idem (w : List Char) :
    capitalizePy (capitalizePy w) = capitalizePy w := by
  cases w with
  | nil => rfl
  | cons c cs =>
    show toUpperX (toUpperX c) :: (cs.map toLowerX).map toLowerX =
      toUpperX c :: cs.map toLowerX
    rw [toUpperX_idem, List.map_map]
    congr 1
    exact List.map_congr_left (fun x _ => toLowerX_idem x)

/-- Registry entries are non-empty words without whitespace. -/
theorem properNouns_wf :
    ∀ pn ∈ properNounsCore, pn ≠ [] ∧ ∀ x ∈ pn, isWsChar x = false := by decide

/-- The later-word rule of the claim is idempotent. -/
theorem claimLaterWord_idem (w : List Char) :
    claimLaterWord (claimLaterWord w) = claimLaterWord w := by
  unfold claimLaterWord
  rcases h : properNounsCore.find? (fun pn => lowerStr pn == lowerStr w) with _ | pn
  · have hpred : (fun pn => lowerStr pn == lowerStr (lowerStr w)) =
        (fun pn => lowerStr pn == lowerStr w) := by
      funext pn
      rw [lowerStr_idem]
    rw [hpred, h, lowerStr_idem]
  · have hmatch : lowerStr pn = lowerStr w := by
      have := List.find?_some h
      simpa using this
    have hpred : (fun q => lowerStr q == lowerStr pn) =
        (fun q => lowerStr q == lowerStr w) := by
      funext q
      rw [hmatch]
    rw [hpred, h]

/-- The code's later-word rule is idempotent. -/
theorem titleWordTransform_idem (w : List Char) :
    titleWordTransform (titleWordTransform w) = titleWordTransform w := by
  rw [titleWordTransform_eq_claimLaterWord]
  exact claimLaterWord_idem w

/-- `str.capitalize` keeps a well-formed token well-formed. -/
theorem capitalizePy_wf (w : List Char) (hne : w ≠ [])
    (hwf : ∀ x ∈ w, isWsChar x = false) :
    capitalizePy w ≠ [] ∧ ∀ x ∈ capitalizePy w, isWsChar x = false := by
  cases w with
  | nil => exact absurd rfl hne
  | cons c cs =>
    refine ⟨by simp [capitalizePy], ?_⟩
    intro x hx
    rcases List.mem_cons.mp hx with rfl | hx
    · exact toUpperX_not_ws c (hwf c (List.mem_cons_self c cs))
    · obtain ⟨y, hy, rfl⟩ := List.mem_map.mp hx
      exact toLowerX_not_ws y (hwf y (List.mem_cons_of_mem c hy))

/-- The code's later-word rule keeps a well-formed token well-formed. -/
theorem titleWordTransform_wf (w : List Char) (hne : w ≠ [])
    (hwf : ∀ x ∈ w, isWsChar x = false) :
    titleWordTransform w ≠ [] ∧ ∀ x ∈ titleWordTransform w, isWsChar x = false := by
  rw [titleWordTransform_eq_claimLaterWord]
  unfold claimLaterWord
  rcases h : properNounsCore.find? (fun pn => lowerStr pn == lowerStr w) with _ | pn
  · refine ⟨?_, ?_⟩
    · intro hcontra
      exact hne (List.map_eq_nil_iff.mp hcontra)
    · intro x hx
      obtain ⟨y, hy, rfl⟩ := List.mem_map.mp hx
      exact toLowerX_not_ws y (hwf y hy)
  · exact properNouns_wf pn (List.mem_of_find?_eq_some h)

/-- The fuel of the line scan does not matter once it covers the number
of lines. -/
theorem stdLinesGo_fuel (F L : List Char → List Char) :
    ∀ (f g : Nat) (ls : List (List Char)), ls.length ≤ f → ls.length ≤ g →
      stdLinesGo F L f ls = stdLinesGo F L g ls := by
  intro f
  induction f with
  | zero =>
    intro g ls hf _
    have hnil : ls = [] := List.length_eq_zero.mp (Nat.le_zero.mp hf)
    subst hnil
    cases g <;> rfl
  | succ f ih =>
    intro g ls hf hg
    cases ls with
    | nil => cases g <;> rfl
    | cons line rest =>
      cases g with
      | zero => simp at hg
      | succ g =>
        have hrest : rest.length ≤ f := by simpa using hf
        have hrestg : rest.length ≤ g := by simpa using hg
        simp only [stdLinesGo]
        by_cases hcond : 2 ≤ (line.takeWhile (fun c => c == '#')).length ∧
            (line.takeWhile (fun c => c == '#')).length ≤ 4 ∧
            (headIsWs (line.dropWhile (fun c => c == '#')) = true ∨
              (line.dropWhile (fun c => c == '#') = [] ∧ rest ≠ []))
        · rw [if_pos hcond, if_pos hcond]
          rcases hsplit : splitWs (line.dropWhile (fun c => c == '#')) with _ | ⟨w, ws⟩
          · rcases hdrop : rest.dropWhile lineAllWs with _ | ⟨target, rest2⟩
            · dsimp only
              rw [ih g rest hrest hrestg]
            · have hsub : (rest.dropWhile lineAllWs).length ≤ rest.length :=
                (List.dropWhile_sublist _).length_le
              rw [hdrop] at hsub
              simp only [List.length_cons] at hsub
              have h2 : rest2.length ≤ rest.length := by omega
              dsimp only
              rw [ih g rest2 (le_trans h2 hrest) (le_trans h2 hrestg)]
          · dsimp only
            rw [ih g rest hrest hrestg]
        · rw [if_neg hcond, if_neg hcond, ih g rest hrest hrestg]

/-- Unfolding the line scan when the line does not match. -/
theorem stdLines_cons_else (F L : List Char → List Char)
    (line : List Char) (rest : List (List Char)) (hcond : ¬stdCond line rest) :
    stdLines F L (line :: rest) = line :: stdLines F L rest := by
  unfold stdCond at hcond
  show stdLinesGo F L (rest.length + 1) (line :: rest) = _
  simp only [stdLinesGo]
  rw [if_neg hcond]
  rfl

/-- Unfolding the line scan when the heading's title sits on the same
line. -/
theorem stdLines_cons_normal (F L : List Char → List Char)
    (line : List Char) (rest : List (List Char)) (w : List Char)
    (ws : List (List Char)) (hcond : stdCond line rest)
    (hsplit : splitWs (line.dropWhile (fun c => c == '#')) = w :: ws) :
    stdLines F L (line :: rest) =
      headingRewrite F L (line.takeWhile (fun c => c == '#')).length w ws ::
        stdLines F L rest := by
  unfold stdCond at hcond
  show stdLinesGo F L (rest.length + 1) (line :: rest) = _
  simp only [stdLinesGo]
  rw [if_pos hcond, hsplit]
  rfl

/-- Unfolding the line scan when the marker's whitespace runs to the end
of the text: the match replaces itself unchanged. -/
theorem stdLines_cons_merge_none (F L : List Char → List Char)
    (line : List Char) (rest : List (List Char)) (hcond : stdCond line rest)
    (hsplit : splitWs (line.dropWhile (fun c => c == '#')) = [])
    (hdrop : rest.dropWhile lineAllWs = []) :
    stdLines F L (line :: rest) = line :: stdLines F L rest := by
  unfold stdCond at hcond
  show stdLinesGo F L (rest.length + 1) (line :: rest) = _
  simp only [stdLinesGo]
  rw [if_pos hcond, hsplit, hdrop]
  rfl

/-- Unfolding the line scan when the marker swallows the following blank
lines and takes the next text line as its title. -/
theorem stdLines_cons_merge (F L : List Char → List Char)
    (line : List Char) (rest : List (List Char)) (target : List Char)
    (rest2 : List (List Char)) (w : List Char) (ws : List (List Char))
    (hcond : stdCond line rest)
    (hsplit : splitWs (line.dropWhile (fun c => c == '#')) = [])
    (hdrop : rest.dropWhile lineAllWs = target :: rest2)
    (htarget : splitWs target = w :: ws) :
    stdLines F L (line :: rest) =
      headingRewrite F L (line.takeWhile (fun c => c == '#')).length w ws ::
        stdLines F L rest2 := by
  unfold stdCond at hcond
  show stdLinesGo F L (rest.length + 1) (line :: rest) = _
  simp only [stdLinesGo]
  rw [if_pos hcond, hsplit, hdrop]
  dsimp only
  rw [htarget]
  have hsub : (rest.dropWhile lineAllWs).length ≤ rest.length :=
    (List.dropWhile_sublist _).length_le
  rw [hdrop] at hsub
  simp only [List.length_cons] at hsub
  dsimp only
  rw [stdLinesGo_fuel F L rest.length rest2.length rest2 (by omega) le_rfl]
  rfl

/-- A whitespace character is not a hash. -/
theorem ws_not_hash (c : Char) (h : isWsChar c = true) : (c == '#') = false := by
  by_cases hb : c = '#'
  · subst hb
    exact absurd h (by decide)
  · simp [hb]

/-- An all-whitespace line carries no heading marker. -/
theorem allWs_no_marker (l : List Char) (h : lineAllWs l = true) :
    l.takeWhile (fun c => c == '#') = [] := by
  cases l with
  | nil => rfl
  | cons c cs =>
    have hc : isWsChar c = true := by
      have := (List.all_eq_true.mp h) c (List.mem_cons_self c cs)
      simpa using this
    simp [List.takeWhile_cons, ws_not_hash c hc]

/-- An all-whitespace line never matches. -/
theorem not_stdCond_of_allWs (l : List Char) (rest : List (List Char))
    (h : lineAllWs l = true) : ¬stdCond l rest := by
  intro hcond
  unfold stdCond at hcond
  rw [allWs_no_marker l h] at hcond
  simp at hcond

/-- The scan leaves all-whitespace lines alone. -/
theorem stdLines_allWs (F L : List Char → List Char) (ls : List (List Char))
    (h : ∀ l ∈ ls, lineAllWs l = true) : stdLines F L ls = ls := by
  induction ls with
  | nil => rfl
  | cons l rest ih =>
    rw [stdLines_cons_else F L l rest
      (not_stdCond_of_allWs l rest (h l (List.mem_cons_self l rest)))]
    rw [ih (fun x hx => h x (List.mem_cons_of_mem l hx))]

/-- The hashes of a rewritten heading line. -/
theorem takeWhile_hash_rewrite (r : Nat) (rest : List Char) :
    (List.replicate r '#' ++ ' ' :: rest).takeWhile (fun c => c == '#') =
      List.replicate r '#' := by
  induction r with
  | zero => simp [List.takeWhile_cons]
  | succ r ih => simp [List.replicate_succ, List.takeWhile_cons, ih]

/-- The body of a rewritten heading line. -/
theorem dropWhile_hash_rewrite (r : Nat) (rest : List Char) :
    (List.replicate r '#' ++ ' ' :: rest).dropWhile (fun c => c == '#') =
      ' ' :: rest := by
  induction r with
  | zero => simp [List.dropWhile_cons]
  | succ r ih => simp [List.replicate_succ, List.dropWhile_cons, ih]

/-- A rewritten heading line is scanned back into its parts and rewritten
to itself (the word rules of the code being idempotent), whatever
follows. -/
theorem stdLines_rewrite_stable (r : Nat) (hr2 : 2 ≤ r) (hr4 : r ≤ 4)
    (w : List Char) (ws : List (List Char))
    (hw : w ≠ [] ∧ ∀ x ∈ w, isWsChar x = false)
    (hws : ∀ t ∈ ws, t ≠ [] ∧ ∀ x ∈ t, isWsChar x = false)
    (T : List (List Char)) :
    stdLines capitalizePy titleWordTransform
        (headingRewrite capitalizePy titleWordTransform r w ws :: T) =
      headingRewrite capitalizePy titleWordTransform r w ws ::
        stdLines capitalizePy titleWordTransform T := by
  have htoks : ∀ t ∈ capitalizePy w :: ws.map titleWordTransform,
      t ≠ [] ∧ ∀ x ∈ t, isWsChar x = false := by
    intro t ht
    rcases List.mem_cons.mp ht with rfl | ht
    · exact capitalizePy_wf w hw.1 hw.2
    · obtain ⟨y, hy, rfl⟩ := List.mem_map.mp ht
      exact titleWordTransform_wf y (hws y hy).1 (hws y hy).2
  have hbody : (headingRewrite capitalizePy titleWordTransform r w ws).dropWhile
      (fun c => c == '#') =
      ' ' :: joinSp (capitalizePy w :: ws.map titleWordTransform) :=
    dropWhile_hash_rewrite r _
  have hhash : (headingRewrite capitalizePy titleWordTransform r w ws).takeWhile
      (fun c => c == '#') = List.replicate r '#' :=
    takeWhile_hash_rewrite r _
  have hsplit : splitWs ((headingRewrite capitalizePy titleWordTransform r w ws).dropWhile
      (fun c => c == '#')) = capitalizePy w :: ws.map titleWordTransform := by
    rw [hbody, splitWs_cons_ws ' ' _ (by decide), splitWs_joinSp _ htoks]
  have hcond : stdCond (headingRewrite capitalizePy titleWordTransform r w ws) T := by
    unfold stdCond
    rw [hhash, List.length_replicate, hbody]
    exact ⟨hr2, hr4, Or.inl rfl⟩
  rw [stdLines_cons_normal capitalizePy titleWordTransform _ T _ _ hcond hsplit]
  congr 1
  rw [hhash, List.length_replicate]
  unfold headingRewrite
  have hmap : List.map (titleWordTransform ∘ titleWordTransform) ws =
      List.map titleWordTransform ws :=
    List.map_congr_left (fun t _ => titleWordTransform_idem t)
  rw [capitalizePy_idem w, List.map_map, hmap]

/-- The glue step never returns the empty list. -/
theorem splitWsGlue_ne_nil (c : Char) (cs : List Char) (r : List (List Char)) :
    splitWsGlue c cs r ≠ [] := by
  rcases cs with _ | ⟨d, ds⟩ <;> rcases r with _ | ⟨t, ts⟩ <;>
    simp only [splitWsGlue] <;> (try split) <;> simp

/-- A line holding a non-whitespace character splits into at least one
word. -/
theorem splitWs_ne_nil_of_not_allWs (l : List Char) (h : lineAllWs l = false) :
    splitWs l ≠ [] := by
  induction l with
  | nil => simp [lineAllWs] at h
  | cons c cs ih =>
    by_cases hc : isWsChar c = true
    · rw [splitWs_cons_ws c cs hc]
      apply ih
      simpa [lineAllWs, hc] using h
    · rw [splitWs_cons, if_neg hc]
      exact splitWsGlue_ne_nil c cs (splitWs cs)

/-- The heading scan of the code is idempotent (induction over the
number of lines). -/
theorem stdLines_idem_aux :
    ∀ (n : Nat) (ls : List (List Char)), ls.length ≤ n →
      stdLines capitalizePy titleWordTransform
          (stdLines capitalizePy titleWordTransform ls) =
        stdLines capitalizePy titleWordTransform ls := by
  intro n
  induction n with
  | zero =>
    intro ls h
    have hnil : ls = [] := List.length_eq_zero.mp (Nat.le_zero.mp h)
    subst hnil
    rfl
  | succ n ih =>
    intro ls hlen
    cases ls with
    | nil => rfl
    | cons line rest =>
      have hrest : rest.length ≤ n := by simpa using hlen
      by_cases hcond : stdCond line rest
      · rcases hsplit : splitWs (line.dropWhile (fun c => c == '#')) with _ | ⟨w, ws⟩
        · rcases hdrop : rest.dropWhile lineAllWs with _ | ⟨target, rest2⟩
          · have hallws : ∀ l ∈ rest, lineAllWs l = true := fun l hl =>
              List.dropWhile_eq_nil_iff.mp hdrop l hl
            have hsr : stdLines capitalizePy titleWordTransform rest = rest :=
              stdLines_allWs _ _ rest hallws
            rw [stdLines_cons_merge_none _ _ line rest hcond hsplit hdrop, hsr,
              stdLines_cons_merge_none _ _ line rest hcond hsplit hdrop, hsr]
          · have hhead := List.head?_dropWhile_not lineAllWs rest
            rw [hdrop] at hhead
            simp only [List.head?_cons] at hhead
            have hne : splitWs target ≠ [] :=
              splitWs_ne_nil_of_not_allWs target hhead
            rcases htarget : splitWs target with _ | ⟨w, ws⟩
            · exact absurd htarget hne
            · have hwwf := splitWs_wf target w (htarget ▸ List.mem_cons_self w ws)
              have hwswf : ∀ t ∈ ws, t ≠ [] ∧ ∀ x ∈ t, isWsChar x = false :=
                fun t ht => splitWs_wf target t (htarget ▸ List.mem_cons_of_mem w ht)
              have hsub : (rest.dropWhile lineAllWs).length ≤ rest.length :=
                (List.dropWhile_sublist _).length_le
              rw [hdrop] at hsub
              simp only [List.length_cons] at hsub
              rw [stdLines_cons_merge _ _ line rest target rest2 w ws hcond hsplit
                hdrop htarget]
              rw [stdLines_rewrite_stable _ hcond.1 hcond.2.1 w ws hwwf hwswf _]
              rw [ih rest2 (by omega)]
        · have hwwf := splitWs_wf _ w (hsplit ▸ List.mem_cons_self w ws)
          have hwswf : ∀ t ∈ ws, t ≠ [] ∧ ∀ x ∈ t, isWsChar x = false :=
            fun t ht => splitWs_wf _ t (hsplit ▸ List.mem_cons_of_mem w ht)
          rw [stdLines_cons_normal _ _ line rest w ws hcond hsplit]
          rw [stdLines_rewrite_stable _ hcond.1 hcond.2.1 w ws hwwf hwswf _]
          rw [ih rest hrest]
      · rw [stdLines_cons_else _ _ line rest hcond]
        have hcond2 : ¬stdCond line (stdLines capitalizePy titleWordTransform rest) := by
          intro hc2
          apply hcond
          rcases hc2 with ⟨h1, h2, h3⟩
          refine ⟨h1, h2, ?_⟩
          rcases h3 with h3 | ⟨hbody, hne⟩
          · exact Or.inl h3
          · refine Or.inr ⟨hbody, ?_⟩
            intro hrnil
            subst hrnil
            exact hne rfl
        rw [stdLines_cons_else _ _ line _ hcond2, ih rest hrest]

/-- The heading scan of the code is idempotent. -/
theorem stdLines_idem (ls : List (List Char)) :
    stdLines capitalizePy titleWordTransform
        (stdLines capitalizePy titleWordTransform ls) =
      stdLines capitalizePy titleWordTransform ls :=
  stdLines_idem_aux ls.length ls le_rfl

/-- Splitting after an appended newline-free front. -/
theorem splitLinesP_append (l r : List Char) (h : '\n' ∉ l) :
    splitLinesP (l ++ r) = (l ++ (splitLinesP r).1, (splitLinesP r).2) := by
  induction l with
  | nil => simp
  | cons c cs ih =>
    have hc : ¬c = '\n' := fun hcc => h (hcc ▸ List.mem_cons_self c cs)
    have ihr := ih (fun hmem => h (List.mem_cons_of_mem c hmem))
    rw [List.cons_append]
    simp only [splitLinesP]
    simp [hc, ihr, List.cons_append]

/-- Splitting inverts joining for newline-free lines. -/
theorem splitLines_joinLines (L : List (List Char)) (hne : L ≠ [])
    (h : ∀ l ∈ L, '\n' ∉ l) : splitLines (joinLines L) = L := by
  induction L with
  | nil => exact absurd rfl hne
  | cons l ls ih =>
    rcases ls with _ | ⟨l2, ls2⟩
    · unfold splitLines
      show (splitLinesP l).1 :: (splitLinesP l).2 = [l]
      have h2 := splitLinesP_append l [] (h l (List.mem_cons_self l []))
      rw [show splitLinesP ([] : List Char) = ([], []) from rfl] at h2
      simp only [List.append_nil] at h2
      rw [h2]
    · have hjoin : joinLines (l :: l2 :: ls2) = l ++ '\n' :: joinLines (l2 :: ls2) := rfl
      have hnl : splitLinesP ('\n' :: joinLines (l2 :: ls2)) =
          ([], splitLines (joinLines (l2 :: ls2))) := by
        rw [splitLinesP]
        simp [splitLines]
      unfold splitLines
      rw [hjoin, splitLinesP_append l _ (h l (List.mem_cons_self l _)), hnl]
      have ihr := ih (by simp) (fun x hx => h x (List.mem_cons_of_mem l hx))
      simp only [List.append_nil]
      rw [ihr]

/-- Lines produced by splitting hold no newline. -/
theorem splitLinesP_no_nl (cs : List Char) :
    '\n' ∉ (splitLinesP cs).1 ∧ ∀ l ∈ (splitLinesP cs).2, '\n' ∉ l := by
  induction cs with
  | nil =>
    exact ⟨fun h => absurd h (List.not_mem_nil _), fun l hl => absurd hl (List.not_mem_nil _)⟩
  | cons c cs ih =>
    simp only [splitLinesP]
    by_cases hc : c = '\n'
    · rw [if_pos (by simpa using hc)]
      refine ⟨List.not_mem_nil _, ?_⟩
      intro l hl
      rcases List.mem_cons.mp hl with rfl | hl
      · exact ih.1
      · exact ih.2 l hl
    · rw [if_neg (by simpa using hc)]
      refine ⟨?_, ih.2⟩
      intro hmem
      rcases List.mem_cons.mp hmem with heq | hmem
      · exact hc heq.symm
      · exact ih.1 hmem

/-- Every line of a split text is newline-free. -/
theorem mem_splitLines_no_nl (cs : List Char) :
    ∀ l ∈ splitLines cs, '\n' ∉ l := by
  intro l hl
  rcases List.mem_cons.mp hl with rfl | hl
  · exact (splitLinesP_no_nl cs).1
  · exact (splitLinesP_no_nl cs).2 l hl

/-- Characters of a space-join come from the tokens or are spaces. -/
theorem mem_joinSp (x : Char) (ts : List (List Char)) (hx : x ∈ joinSp ts) :
    x = ' ' ∨ ∃ t ∈ ts, x ∈ t := by
  induction ts with
  | nil => cases hx
  | cons t ts ih =>
    rcases ts with _ | ⟨t2, ts2⟩
    · exact Or.inr ⟨t, by simp, hx⟩
    · rw [show joinSp (t :: t2 :: ts2) = t ++ ' ' :: joinSp (t2 :: ts2) from rfl] at hx
      rcases List.mem_append.mp hx with hx | hx
      · exact Or.inr ⟨t, by simp, hx⟩
      · rcases List.mem_cons.mp hx with rfl | hx
        · exact Or.inl rfl
        · rcases ih hx with h | ⟨t', ht', hxt⟩
          · exact Or.inl h
          · exact Or.inr ⟨t', List.mem_cons_of_mem t ht', hxt⟩

/-- A rewritten heading line holds no newline once its words are
whitespace-free. -/
theorem headingRewrite_no_nl (F L : List Char → List Char) (r : Nat)
    (w : List Char) (ws : List (List Char))
    (htoks : ∀ t ∈ F w :: ws.map L, t ≠ [] ∧ ∀ x ∈ t, isWsChar x = false) :
    '\n' ∉ headingRewrite F L r w ws := by
  intro hmem
  unfold headingRewrite at hmem
  rcases List.mem_append.mp hmem with hmem | hmem
  · have := List.eq_of_mem_replicate hmem
    cases this
  · rcases List.mem_cons.mp hmem with heq | hmem
    · cases heq
    · rcases mem_joinSp _ _ hmem with heq | ⟨t, ht, hxt⟩
      · cases heq
      · have := (htoks t ht).2 '\n' hxt
        simp [isWsChar] at this

/-- The scan keeps every line newline-free. -/
theorem stdLines_no_nl :
    ∀ (n : Nat) (ls : List (List Char)), ls.length ≤ n →
      (∀ l ∈ ls, '\n' ∉ l) →
      ∀ l' ∈ stdLines capitalizePy titleWordTransform ls, '\n' ∉ l' := by
  intro n
  induction n with
  | zero =>
    intro ls hlen _ l' hl'
    have hnil : ls = [] := List.length_eq_zero.mp (Nat.le_zero.mp hlen)
    subst hnil
    cases hl'
  | succ n ih =>
    intro ls hlen hno l' hl'
    cases ls with
    | nil => cases hl'
    | cons line rest =>
      have hrest : rest.length ≤ n := by simpa using hlen
      have hnorest : ∀ l ∈ rest, '\n' ∉ l := fun l hl =>
        hno l (List.mem_cons_of_mem line hl)
      by_cases hcond : stdCond line rest
      · rcases hsplit : splitWs (line.dropWhile (fun c => c == '#')) with _ | ⟨w, ws⟩
        · rcases hdrop : rest.dropWhile lineAllWs with _ | ⟨target, rest2⟩
          · rw [stdLines_cons_merge_none _ _ line rest hcond hsplit hdrop] at hl'
            rcases List.mem_cons.mp hl' with rfl | hl'
            · exact hno l' (List.mem_cons_self _ _)
            · exact ih rest hrest hnorest l' hl'
          · have hhead := List.head?_dropWhile_not lineAllWs rest
            rw [hdrop] at hhead
            simp only [List.head?_cons] at hhead
            rcases htarget : splitWs target with _ | ⟨w, ws⟩
            · exact absurd htarget (splitWs_ne_nil_of_not_allWs target hhead)
            · rw [stdLines_cons_merge _ _ line rest target rest2 w ws hcond hsplit
                hdrop htarget] at hl'
              have hwwf := splitWs_wf target w (htarget ▸ List.mem_cons_self w ws)
              have hwswf : ∀ t ∈ ws, t ≠ [] ∧ ∀ x ∈ t, isWsChar x = false :=
                fun t ht => splitWs_wf target t (htarget ▸ List.mem_cons_of_mem w ht)
              have hsub : (rest.dropWhile lineAllWs).length ≤ rest.length :=
                (List.dropWhile_sublist _).length_le
              rw [hdrop] at hsub
              simp only [List.length_cons] at hsub
              have hrest2 : ∀ l ∈ rest2, '\n' ∉ l := by
                intro l hl
                refine hnorest l ?_
                have : l ∈ rest.dropWhile lineAllWs := by
                  rw [hdrop]
                  exact List.mem_cons_of_mem target hl
                exact (List.dropWhile_sublist _).mem this
              rcases List.mem_cons.mp hl' with rfl | hl'
              · refine headingRewrite_no_nl _ _ _ w ws ?_
                intro t ht
                rcases List.mem_cons.mp ht with rfl | ht
                · exact capitalizePy_wf w hwwf.1 hwwf.2
                · obtain ⟨y, hy, rfl⟩ := List.mem_map.mp ht
                  exact titleWordTransform_wf y (hwswf y hy).1 (hwswf y hy).2
              · exact ih rest2 (by omega) hrest2 l' hl'
        · rw [stdLines_cons_normal _ _ line rest w ws hcond hsplit] at hl'
          have hwwf := splitWs_wf _ w (hsplit ▸ List.mem_cons_self w ws)
          have hwswf : ∀ t ∈ ws, t ≠ [] ∧ ∀ x ∈ t, isWsChar x = false :=
            fun t ht => splitWs_wf _ t (hsplit ▸ List.mem_cons_of_mem w ht)
          rcases List.mem_cons.mp hl' with rfl | hl'
          · refine headingRewrite_no_nl _ _ _ w ws ?_
            intro t ht
            rcases List.mem_cons.mp ht with rfl | ht
            · exact capitalizePy_wf w hwwf.1 hwwf.2
            · obtain ⟨y, hy, rfl⟩ := List.mem_map.mp ht
              exact titleWordTransform_wf y (hwswf y hy).1 (hwswf y hy).2
          · exact ih rest hrest hnorest l' hl'
      · rw [stdLines_cons_else _ _ line rest hcond] at hl'
        rcases List.mem_cons.mp hl' with rfl | hl'
        · exact hno l' (List.mem_cons_self _ _)
        · exact ih rest hrest hnorest l' hl'

/-- The scan of at least one line yields at least one line. -/
theorem stdLines_ne_nil (F L : List Char → List Char) (line : List Char)
    (rest : List (List Char)) : stdLines F L (line :: rest) ≠ [] := by
  by_cases hcond : stdCond line rest
  · rcases hsplit : splitWs (line.dropWhile (fun c => c == '#')) with _ | ⟨w, ws⟩
    · rcases hdrop : rest.dropWhile lineAllWs with _ | ⟨target, rest2⟩
      · rw [stdLines_cons_merge_none F L line rest hcond hsplit hdrop]
        simp
      · rcases htarget : splitWs target with _ | ⟨w, ws⟩
        · have hhead := List.head?_dropWhile_not lineAllWs rest
          rw [hdrop] at hhead
          simp only [List.head?_cons] at hhead
          exact absurd htarget (splitWs_ne_nil_of_not_allWs target hhead)
        · rw [stdLines_cons_merge F L line rest target rest2 w ws hcond hsplit
            hdrop htarget]
          simp
    · rw [stdLines_cons_normal F L line rest w ws hcond hsplit]
      simp
  · rw [stdLines_cons_else F L line rest hcond]
    simp

/-- C9: the title transform is idempotent — applying
`standardize_titles` twice equals applying it once. -/
theorem c9_standardize_titles_idempotent (content : String) :
    standardize_titles (standardize_titles content) = standardize_titles content := by
  unfold standardize_titles
  rw [show (String.mk (joinLines (stdLines capitalizePy titleWordTransform
    (splitLines content.data)))).data = joinLines (stdLines capitalizePy
    titleWordTransform (splitLines content.data)) from rfl]
  have hno : ∀ l ∈ stdLines capitalizePy titleWordTransform (splitLines content.data),
      '\n' ∉ l :=
    stdLines_no_nl (splitLines content.data).length (splitLines content.data) le_rfl
      (mem_splitLines_no_nl content.data)
  have hne : stdLines capitalizePy titleWordTransform (splitLines content.data) ≠ [] :=
    stdLines_ne_nil _ _ _ _
  rw [splitLines_joinLines _ hne hno, stdLines_idem]

end Fotz
